import Mathlib

/-! # Verse ingestion and normalisation (`src/script.js`)

A shallow embedding of the data path of `script.js`: the `DOMContentLoaded`
handler (fetch, per-record normalisation, sort, `initApp`) and the chapter
filter of `openChapter`.

Modelling conventions.

* A JavaScript string is the list of its characters (`JSString`).  Every
  character the code inspects (newline, ASCII digits, `.`, `|`, the white
  space removed by `trim`, the danda U+0964) lies in the Basic Multilingual
  Plane, so a character is one UTF-16 code unit there.
* A text-bearing property of a source record is a string or absent
  (`Option JSString`, `none` for `undefined`); a numbering property is an
  integer or absent (`Option Int`).  JavaScript numbers holding integers are
  modelled by `Int`, the result `NaN` by `none`.
* `a || b` yields `a` when `a` is truthy and `b` otherwise; a string is
  truthy when it is non-empty, a number when it is neither zero nor `NaN`,
  `undefined` never.
* A body that parses to something other than an array of such records (the
  callback then throws a `TypeError` inside the `try` block) is outside the
  model.
* `initApp` only touches the document; the model counts its calls.
-/

namespace Gita

/-- A JavaScript string as the list of its characters. -/
abbrev JSString := List Char

/-! ## String primitives -/

/-- The call `.replace(/\n/g, " ")`: every line feed becomes one space. -/
def replaceNewlines (s : JSString) : JSString :=
  s.map fun c => if c = '\n' then ' ' else c

/-- The character class `[0-9.|]`. -/
def isNumberingChar (c : Char) : Bool :=
  (48 ≤ c.toNat && c.toNat ≤ 57) || c = '.' || c = '|'

/-- An attempt to match `[0-9.|]+$` with the match starting at the head of `s`:
the greedy `+` takes the longest run of class characters, `$` (no `m` flag)
holds only at the end of the input and backtracking only shortens the run, so
the attempt succeeds exactly when `s` is non-empty and consists of class
characters only. -/
def matchesNumberingToEnd (s : JSString) : Bool :=
  !s.isEmpty && s.all isNumberingChar

/-- The call `.replace(/[0-9.|]+$/g, '')`: the start positions are tried from
left to right; the first successful match runs to the end of the input and is
replaced by the empty string, after which no further match exists. -/
def stripTrailingNumbering : JSString → JSString
  | [] => []
  | c :: cs =>
    if matchesNumberingToEnd (c :: cs) then [] else c :: stripTrailingNumbering cs

/-- The code points removed by `String.prototype.trim`: ECMAScript WhiteSpace
(TAB, VT, FF, SP, NBSP, ZWNBSP and the Unicode space separators) and
LineTerminator (LF, CR, LS, PS). -/
def isTrimChar (c : Char) : Bool :=
  c.toNat = 0x09 || c.toNat = 0x0A || c.toNat = 0x0B || c.toNat = 0x0C ||
  c.toNat = 0x0D || c.toNat = 0x20 || c.toNat = 0xA0 || c.toNat = 0x1680 ||
  (0x2000 ≤ c.toNat && c.toNat ≤ 0x200A) || c.toNat = 0x2028 ||
  c.toNat = 0x2029 || c.toNat = 0x202F || c.toNat = 0x205F ||
  c.toNat = 0x3000 || c.toNat = 0xFEFF

/-- Removal of the leading white space. -/
def trimStart (s : JSString) : JSString :=
  s.dropWhile isTrimChar

/-- Removal of the trailing white space. -/
def trimEnd (s : JSString) : JSString :=
  (s.reverse.dropWhile isTrimChar).reverse

/-- The call `.trim()`. -/
def trim (s : JSString) : JSString :=
  trimEnd (trimStart s)

/-- The closing mark `" ।।"`: a space followed by two dandas (U+0964). -/
def danda : JSString := [' ', '।', '।']

/-- The literal `"Translation unavailable."`. -/
def translationUnavailable : JSString := "Translation unavailable.".toList

/-! ## The operator `||` on property values -/

/-- Truthiness of a text property: a non-empty string. -/
def truthyStr : Option JSString → Bool
  | some (_ :: _) => true
  | _ => false

/-- The expression `a || b` on text properties. -/
def orStr (a b : Option JSString) : Option JSString :=
  if truthyStr a then a else b

/-- The expression `a || "literal"`: the result is always a string. -/
def orStrLit (a : Option JSString) (lit : JSString) : JSString :=
  match a with
  | some (c :: cs) => c :: cs
  | _ => lit

/-- Truthiness of a numbering property: a number other than zero. -/
def truthyNum : Option Int → Bool
  | some n => n != 0
  | none => false

/-- The expression `a || b` on numbering properties. -/
def orNum (a b : Option Int) : Option Int :=
  if truthyNum a then a else b

/-! ## Records -/

/-- An element of the fetched array, with the property names the handler reads. -/
structure SourceRecord where
  sanskrit : Option JSString := none
  text : Option JSString := none
  shloka : Option JSString := none
  translation : Option JSString := none
  meaning : Option JSString := none
  english_meaning : Option JSString := none
  transliteration : Option JSString := none
  word_meanings : Option JSString := none
  chapter : Option Int := none
  chapter_number : Option Int := none
  chapter_id : Option Int := none
  verse : Option Int := none
  verse_number : Option Int := none
  verse_id : Option Int := none
deriving DecidableEq, Repr

/-- The object returned by the `rawData.map` callback. -/
structure CanonicalVerse where
  chapter : Option Int
  verse : Option Int
  sanskrit : JSString
  translation : JSString
deriving DecidableEq, Repr

/-! ## The `rawData.map` callback -/

/-- The binding `rawSanskrit = item.sanskrit || item.text || item.shloka || ""`. -/
def rawSanskrit (item : SourceRecord) : JSString :=
  orStrLit (orStr (orStr item.sanskrit item.text) item.shloka) []

/-- The chain `.replace(/\n/g, " ").replace(/[0-9.|]+$/g, '').trim()`: the value
of `cleanSanskrit` before the closing mark is appended. -/
def preTerminator (raw : JSString) : JSString :=
  trim (stripTrailingNumbering (replaceNewlines raw))

/-- The value of `cleanSanskrit` after `if(cleanSanskrit) cleanSanskrit += " ।।"`,
as a function of the raw string. -/
def cleanSanskrit (raw : JSString) : JSString :=
  let c := preTerminator raw
  if c.isEmpty then c else c ++ danda

/-- The binding `rawEnglish = item.translation || item.meaning ||
item.english_meaning || item.transliteration || item.word_meanings ||
"Translation unavailable."`. -/
def rawEnglish (item : SourceRecord) : JSString :=
  orStrLit
    (orStr (orStr (orStr (orStr item.translation item.meaning) item.english_meaning)
      item.transliteration) item.word_meanings)
    translationUnavailable

/-- The binding `cleanEnglish = rawEnglish.replace(/\n/g, " ").trim()`. -/
def cleanEnglish (raw : JSString) : JSString :=
  trim (replaceNewlines raw)

/-- The callback of `rawData.map`. -/
def normalizeRecord (item : SourceRecord) : CanonicalVerse where
  chapter := orNum (orNum item.chapter item.chapter_number) item.chapter_id
  verse := orNum (orNum item.verse item.verse_number) item.verse_id
  sanskrit := cleanSanskrit (rawSanskrit item)
  translation := cleanEnglish (rawEnglish item)

/-! ## Sorting -/

/-- Subtraction of two numbering values; `undefined` operands give `NaN`. -/
def jsSub (a b : Option Int) : Option Int :=
  match a, b with
  | some x, some y => some (x - y)
  | _, _ => none

/-- The comparator passed to `gitaData.sort`. -/
def compareVerses (a b : CanonicalVerse) : Option Int :=
  if a.chapter = b.chapter then jsSub a.verse b.verse else jsSub a.chapter b.chapter

/-- The abstract operation SortCompare of `Array.prototype.sort` on the value a
comparator returns: `NaN` counts as `+0`. -/
def sortCompare {α : Type} (cmp : α → α → Option Int) (x y : α) : Int :=
  (cmp x y).getD 0

/-- Insertion of `x` in front of a sorted tail, ahead of the elements it does
not compare greater than (this keeps the sort stable). -/
def orderedInsert {α : Type} (cmp : α → α → Option Int) (x : α) : List α → List α
  | [] => [x]
  | y :: ys =>
    if sortCompare cmp x y ≤ 0 then x :: y :: ys else y :: orderedInsert cmp x ys

/-- The built-in `Array.prototype.sort(cmp)`, as a stable insertion sort.  For a
consistent comparator every conforming engine returns this very order. -/
def arraySort {α : Type} (cmp : α → α → Option Int) : List α → List α
  | [] => []
  | x :: xs => orderedInsert cmp x (arraySort cmp xs)

/-! ## The `DOMContentLoaded` handler -/

/-- What `fetch('gita.json')` and `response.json()` deliver: the fetch promise
rejects, or a response arrives with its `ok` flag and a body that parses to an
array of records (`none` when `response.json()` rejects). -/
inductive FetchOutcome where
  | rejected
  | response (ok : Bool) (json : Option (List SourceRecord))

/-- The state the handler acts on: the global `gitaData`, the number of calls
of `initApp`, and whether the `catch` block has put up the error message. -/
structure AppState where
  gitaData : List CanonicalVerse
  initAppCalls : Nat
  errorShown : Bool
deriving DecidableEq, Repr

/-- The state at script load: `let gitaData = []`. -/
def initialState : AppState where
  gitaData := []
  initAppCalls := 0
  errorShown := false

/-- The `try` block: the state reached and whether an exception left the block. -/
def tryBlock (o : FetchOutcome) (st : AppState) : AppState × Bool :=
  match o with
  | .rejected => (st, true)
  | .response ok json =>
    if !ok then (st, true)
    else
      match json with
      | none => (st, true)
      | some rawData =>
        let st1 := { st with gitaData := rawData.map normalizeRecord }
        let st2 := { st1 with gitaData := arraySort compareVerses st1.gitaData }
        ({ st2 with initAppCalls := st2.initAppCalls + 1 }, false)

/-- The handler: the `try` block, then the `catch` block when it threw. -/
def onDOMContentLoaded (o : FetchOutcome) (st : AppState) : AppState :=
  match tryBlock o st with
  | (st1, true) => { st1 with errorShown := true }
  | (st1, false) => st1

/-! ## The reader -/

/-- The comparison `v.chapter == chapterNum` against a number: `undefined` is
loosely equal to no number. -/
def looseEqNum (a : Option Int) (n : Int) : Bool :=
  match a with
  | some x => x == n
  | none => false

/-- The binding `chapterVerses = gitaData.filter(v => v.chapter == chapterNum)`
of `openChapter`. -/
def chapterVerses (gitaData : List CanonicalVerse) (chapterNum : Int) : List CanonicalVerse :=
  gitaData.filter fun v => looseEqNum v.chapter chapterNum

/-! ## Order of two canonical records -/

/-- The record `a` may stand directly before `b`: `a` has a smaller chapter, or
an equal chapter and a verse that is not larger (both numbered by integers). -/
def inOrder (a b : CanonicalVerse) : Prop :=
  match a.chapter, a.verse, b.chapter, b.verse with
  | some ca, some va, some cb, some vb => ca < cb ∨ (ca = cb ∧ va ≤ vb)
  | _, _, _, _ => False

instance (a b : CanonicalVerse) : Decidable (inOrder a b) := by
  unfold inOrder
  split <;> infer_instance

/-! ## The wording of the specification

Definitions that follow the sentences of the specification, to be compared
with the definitions taken from the code. -/

namespace Spec

/-- The first present alias in priority order, or the placeholder when no alias
is present. -/
def firstPresentOr (aliases : List (Option JSString)) (placeholder : JSString) : JSString :=
  match aliases with
  | [] => placeholder
  | some v :: _ => v
  | none :: rest => firstPresentOr rest placeholder

/-- The first alias in priority order that is present and non-empty, or the
placeholder when there is none. -/
def firstNonEmptyOr (aliases : List (Option JSString)) (placeholder : JSString) : JSString :=
  match aliases with
  | [] => placeholder
  | some (c :: cs) :: _ => c :: cs
  | _ :: rest => firstNonEmptyOr rest placeholder

/-- The value of the first present numbering alias ("first present wins"). -/
def firstPresentNum : List (Option Int) → Option Int
  | [] => none
  | some n :: _ => some n
  | none :: rest => firstPresentNum rest

/-- The value of the first numbering alias that is present and not zero. -/
def firstNonZero : List (Option Int) → Option Int
  | [] => none
  | some n :: rest => if n = 0 then firstNonZero rest else some n
  | none :: rest => firstNonZero rest

/-- Step 2 of the cleaning algorithm: strip the trailing run of characters drawn
from digits, `.` and `|`. -/
def stripTrailingRun (s : JSString) : JSString :=
  s.rdropWhile isNumberingChar

/-- The cleaning algorithm for original text, steps 1 to 4. -/
def cleanOriginal (s : JSString) : JSString :=
  let s1 := s.map fun c => if c = '\n' then ' ' else c
  let s2 := stripTrailingRun s1
  let s3 := (s2.dropWhile isTrimChar).rdropWhile isTrimChar
  if s3 = [] then [] else s3 ++ danda

end Spec

/-! ## String lemmas -/

theorem replaceNewlines_not_mem (s : JSString) : '\n' ∉ replaceNewlines s := by
  intro h
  obtain ⟨c, -, hc⟩ := List.mem_map.mp h
  by_cases hn : c = '\n'
  · rw [if_pos hn] at hc
    exact absurd hc (by decide)
  · rw [if_neg hn] at hc
    exact hn hc

theorem replaceNewlines_of_not_mem (s : JSString) (h : '\n' ∉ s) : replaceNewlines s = s := by
  unfold replaceNewlines
  conv_rhs => rw [← List.map_id s]
  apply List.map_congr_left
  intro c hc
  have hn : c ≠ '\n' := fun e => h (e ▸ hc)
  simp [hn]

theorem stripTrailingNumbering_concat (s : JSString) (a : Char) :
    stripTrailingNumbering (s ++ [a]) =
      if isNumberingChar a then stripTrailingNumbering s else s ++ [a] := by
  induction s with
  | nil => cases h : isNumberingChar a <;> simp [stripTrailingNumbering, matchesNumberingToEnd, h]
  | cons c cs ih =>
    cases h : isNumberingChar a
    · simp [stripTrailingNumbering, matchesNumberingToEnd, h, ih]
    · simp [stripTrailingNumbering, matchesNumberingToEnd, h, ih]

theorem stripTrailingNumbering_eq_rdropWhile (s : JSString) :
    stripTrailingNumbering s = s.rdropWhile isNumberingChar := by
  induction s using List.reverseRecOn with
  | nil => rfl
  | append_singleton l a ih =>
    rw [stripTrailingNumbering_concat, List.rdropWhile_concat, ih]

theorem trim_eq (s : JSString) :
    trim s = (s.dropWhile isTrimChar).rdropWhile isTrimChar := rfl

theorem dropWhile_of_head (p : Char → Bool) (s : JSString)
    (h : ∀ c, s.head? = some c → p c = false) : s.dropWhile p = s := by
  cases s with
  | nil => rfl
  | cons a l => simp [List.dropWhile, h a rfl]

theorem rdropWhile_of_getLast (p : Char → Bool) (s : JSString)
    (h : ∀ c, s.getLast? = some c → p c = false) : s.rdropWhile p = s := by
  unfold List.rdropWhile
  rw [dropWhile_of_head p s.reverse (by simpa using h), List.reverse_reverse]

theorem head_dropWhile (p : Char → Bool) (s : JSString) (c : Char)
    (h : (s.dropWhile p).head? = some c) : p c = false := by
  have := List.head?_dropWhile_not p s
  rw [h] at this
  exact this

theorem getLast_rdropWhile (p : Char → Bool) (s : JSString) (c : Char)
    (h : (s.rdropWhile p).getLast? = some c) : p c = false := by
  unfold List.rdropWhile at h
  rw [List.getLast?_reverse] at h
  exact head_dropWhile p s.reverse c h

theorem head_of_initial (s t : JSString) (c : Char) (hp : s <+: t)
    (h : s.head? = some c) : t.head? = some c := by
  obtain ⟨r, rfl⟩ := hp
  cases s with
  | nil => simp at h
  | cons a l => simpa using h

theorem head_trim (s : JSString) (c : Char) (h : (trim s).head? = some c) :
    isTrimChar c = false :=
  head_dropWhile isTrimChar s c
    (head_of_initial _ _ c ( List.rdropWhile_prefix isTrimChar _) (by rwa [trim_eq] at h))

theorem trim_of_ends (s : JSString) (hh : ∀ c, s.head? = some c → isTrimChar c = false)
    (hl : ∀ c, s.getLast? = some c → isTrimChar c = false) : trim s = s := by
  rw [trim_eq, dropWhile_of_head isTrimChar s hh, rdropWhile_of_getLast isTrimChar s hl]

theorem trim_sublist (s : JSString) : (trim s).Sublist s :=
  (( List.rdropWhile_prefix isTrimChar _).sublist).trans (List.dropWhile_sublist isTrimChar)

theorem stripTrailingNumbering_initial (s : JSString) : stripTrailingNumbering s <+: s := by
  rw [stripTrailingNumbering_eq_rdropWhile]
  exact List.rdropWhile_prefix isNumberingChar s

theorem getLast_stripTrailingNumbering (s : JSString) (c : Char)
    (h : (stripTrailingNumbering s).getLast? = some c) : isNumberingChar c = false :=
  getLast_rdropWhile isNumberingChar s c (by rwa [stripTrailingNumbering_eq_rdropWhile] at h)

theorem stripTrailingNumbering_of_getLast (s : JSString)
    (h : ∀ c, s.getLast? = some c → isNumberingChar c = false) :
    stripTrailingNumbering s = s := by
  rw [stripTrailingNumbering_eq_rdropWhile]
  exact rdropWhile_of_getLast isNumberingChar s h

theorem preTerminator_sublist (s : JSString) :
    (preTerminator s).Sublist (replaceNewlines s) :=
  (trim_sublist _).trans (stripTrailingNumbering_initial _).sublist

theorem preTerminator_not_mem (s : JSString) : '\n' ∉ preTerminator s :=
  fun h => replaceNewlines_not_mem s ((preTerminator_sublist s).subset h)

theorem preTerminator_append_danda (t : JSString) (hne : t ≠ []) (hn : '\n' ∉ t)
    (hh : ∀ c, t.head? = some c → isTrimChar c = false) :
    preTerminator (t ++ danda) = t ++ danda := by
  have hlast : (t ++ danda).getLast? = some '।' := by simp [danda]
  have hhead : (t ++ danda).head? = t.head? := by
    cases t with
    | nil => exact absurd rfl hne
    | cons a l => rfl
  unfold preTerminator
  rw [replaceNewlines_of_not_mem, stripTrailingNumbering_of_getLast, trim_of_ends]
  · intro c hc
    exact hh c (hhead ▸ hc)
  · intro c hc
    rw [hlast] at hc
    cases hc
    decide
  · intro c hc
    rw [hlast] at hc
    cases hc
    decide
  · intro h
    rcases List.mem_append.mp h with h | h
    · exact hn h
    · revert h
      decide

theorem cleanSanskrit_eq (r : JSString) :
    cleanSanskrit r = if preTerminator r = [] then [] else preTerminator r ++ danda := by
  by_cases he : preTerminator r = [] <;> simp [cleanSanskrit, he]

theorem cleanSanskrit_twice (s : JSString) :
    cleanSanskrit (cleanSanskrit s) =
      if cleanSanskrit s = [] then [] else cleanSanskrit s ++ danda := by
  by_cases he : preTerminator s = []
  · have h1 : cleanSanskrit s = [] := by simp [cleanSanskrit, he]
    rw [h1]
    decide
  · have h1 : cleanSanskrit s = preTerminator s ++ danda := by
      simp [cleanSanskrit, he]
    have h2 : preTerminator (cleanSanskrit s) = cleanSanskrit s := by
      rw [h1]
      exact preTerminator_append_danda _ he (preTerminator_not_mem s) (head_trim _)
    have h3 : cleanSanskrit s ≠ [] := by
      rw [h1]
      simp [danda]
    rw [if_neg h3, cleanSanskrit_eq (cleanSanskrit s), h2, if_neg h3]

/-! ## Sorting lemmas -/

/-- A record is numbered when its chapter and verse are integers. -/
theorem numbered_iff (v : CanonicalVerse) :
    (v.chapter ≠ none ∧ v.verse ≠ none) ↔ ∃ c n, v.chapter = some c ∧ v.verse = some n := by
  constructor
  · rintro ⟨hc, hv⟩
    obtain ⟨c, hc⟩ := Option.ne_none_iff_exists'.mp hc
    obtain ⟨n, hv⟩ := Option.ne_none_iff_exists'.mp hv
    exact ⟨c, n, hc, hv⟩
  · rintro ⟨c, n, hc, hv⟩
    simp [hc, hv]

theorem inOrder_of_compare_le (x y : CanonicalVerse)
    (hx : x.chapter ≠ none ∧ x.verse ≠ none) (hy : y.chapter ≠ none ∧ y.verse ≠ none)
    (h : sortCompare compareVerses x y ≤ 0) : inOrder x y := by
  obtain ⟨cx, vx, hcx, hvx⟩ := (numbered_iff x).mp hx
  obtain ⟨cy, vy, hcy, hvy⟩ := (numbered_iff y).mp hy
  unfold sortCompare compareVerses at h
  rw [hcx, hcy, hvx, hvy] at h
  unfold inOrder
  rw [hcx, hcy, hvx, hvy]
  by_cases hc : cx = cy
  · simp [hc, jsSub] at h
    exact Or.inr ⟨hc, h⟩
  · simp [hc, jsSub] at h
    exact Or.inl (lt_of_le_of_ne h hc)

theorem inOrder_of_not_compare_le (x y : CanonicalVerse)
    (hx : x.chapter ≠ none ∧ x.verse ≠ none) (hy : y.chapter ≠ none ∧ y.verse ≠ none)
    (h : ¬ sortCompare compareVerses x y ≤ 0) : inOrder y x := by
  obtain ⟨cx, vx, hcx, hvx⟩ := (numbered_iff x).mp hx
  obtain ⟨cy, vy, hcy, hvy⟩ := (numbered_iff y).mp hy
  unfold sortCompare compareVerses at h
  rw [hcx, hcy, hvx, hvy] at h
  unfold inOrder
  rw [hcx, hcy, hvx, hvy]
  by_cases hc : cx = cy
  · simp [hc, jsSub] at h
    exact Or.inr ⟨hc.symm, le_of_lt h⟩
  · simp [hc, jsSub] at h
    exact Or.inl h

theorem inOrder_trans (x y z : CanonicalVerse) (hxy : inOrder x y) (hyz : inOrder y z) :
    inOrder x z := by
  unfold inOrder at *
  rcases hx1 : x.chapter with _ | cx <;> rcases hx2 : x.verse with _ | vx <;>
    rcases hy1 : y.chapter with _ | cy <;> rcases hy2 : y.verse with _ | vy <;>
    rcases hz1 : z.chapter with _ | cz <;> rcases hz2 : z.verse with _ | vz
  all_goals simp only [hx1, hx2, hy1, hy2, hz1, hz2] at hxy hyz ⊢
  all_goals first | exact hxy.elim | exact hyz.elim | omega

theorem mem_orderedInsert {α : Type} (cmp : α → α → Option Int) (x z : α) (l : List α) :
    z ∈ orderedInsert cmp x l ↔ z = x ∨ z ∈ l := by
  induction l with
  | nil => simp [orderedInsert]
  | cons y ys ih =>
    unfold orderedInsert
    split
    · simp
    · simp [ih]
      tauto

theorem orderedInsert_perm {α : Type} (cmp : α → α → Option Int) (x : α) (l : List α) :
    (orderedInsert cmp x l).Perm (x :: l) := by
  induction l with
  | nil => exact List.Perm.refl _
  | cons y ys ih =>
    unfold orderedInsert
    split
    · exact List.Perm.refl _
    · exact (List.Perm.cons y ih).trans (List.Perm.swap x y ys)

theorem arraySort_perm {α : Type} (cmp : α → α → Option Int) (l : List α) :
    (arraySort cmp l).Perm l := by
  induction l with
  | nil => exact List.Perm.refl _
  | cons x xs ih =>
    exact (orderedInsert_perm cmp x _).trans (List.Perm.cons x ih)

theorem orderedInsert_pairwise (x : CanonicalVerse) (l : List CanonicalVerse)
    (hx : x.chapter ≠ none ∧ x.verse ≠ none)
    (hl : ∀ v ∈ l, v.chapter ≠ none ∧ v.verse ≠ none)
    (hs : l.Pairwise inOrder) : (orderedInsert compareVerses x l).Pairwise inOrder := by
  induction l with
  | nil => simp [orderedInsert]
  | cons y ys ih =>
    have hy := hl y (List.mem_cons_self y ys)
    have hys : ∀ v ∈ ys, v.chapter ≠ none ∧ v.verse ≠ none :=
      fun v hv => hl v (List.mem_cons_of_mem y hv)
    obtain ⟨hyall, hsys⟩ := List.pairwise_cons.mp hs
    unfold orderedInsert
    split
    · next hle =>
      have hxy := inOrder_of_compare_le x y hx hy hle
      refine List.pairwise_cons.mpr ⟨?_, hs⟩
      intro z hz
      rcases List.mem_cons.mp hz with rfl | hz
      · exact hxy
      · exact inOrder_trans x y z hxy (hyall z hz)
    · next hnle =>
      have hyx := inOrder_of_not_compare_le x y hx hy hnle
      refine List.pairwise_cons.mpr ⟨?_, ih hys hsys⟩
      intro z hz
      rcases (mem_orderedInsert compareVerses x z ys).mp hz with rfl | hz
      · exact hyx
      · exact hyall z hz

theorem arraySort_pairwise (l : List CanonicalVerse)
    (hl : ∀ v ∈ l, v.chapter ≠ none ∧ v.verse ≠ none) :
    (arraySort compareVerses l).Pairwise inOrder := by
  induction l with
  | nil => exact List.Pairwise.nil
  | cons x xs ih =>
    have hxs : ∀ v ∈ xs, v.chapter ≠ none ∧ v.verse ≠ none :=
      fun v hv => hl v (List.mem_cons_of_mem x hv)
    refine orderedInsert_pairwise x _ (hl x (List.mem_cons_self x xs)) ?_ (ih hxs)
    intro v hv
    exact hxs v ((arraySort_perm compareVerses xs).mem_iff.mp hv)

theorem gitaData_of_success (rawData : List SourceRecord) (st : AppState) :
    (onDOMContentLoaded (.response true (some rawData)) st).gitaData =
      arraySort compareVerses (rawData.map normalizeRecord) := rfl

/-! ## Alias selection and the specification's cleaning algorithm -/

theorem orStrLit_orStr (a b : Option JSString) (lit : JSString) :
    orStrLit (orStr a b) lit = orStrLit a (orStrLit b lit) := by
  rcases a with _ | _ | ⟨c, cs⟩ <;> simp [orStr, orStrLit, truthyStr]

theorem firstNonEmptyOr_cons (a : Option JSString) (rest : List (Option JSString))
    (lit : JSString) :
    Spec.firstNonEmptyOr (a :: rest) lit = orStrLit a (Spec.firstNonEmptyOr rest lit) := by
  rcases a with _ | _ | ⟨c, cs⟩ <;> simp [Spec.firstNonEmptyOr, orStrLit]

theorem rawSanskrit_eq_spec (item : SourceRecord) :
    rawSanskrit item = Spec.firstNonEmptyOr [item.sanskrit, item.text, item.shloka] [] := by
  unfold rawSanskrit
  simp only [orStrLit_orStr, firstNonEmptyOr_cons]
  rfl

theorem rawEnglish_eq_spec (item : SourceRecord) :
    rawEnglish item =
      Spec.firstNonEmptyOr
        [item.translation, item.meaning, item.english_meaning, item.transliteration,
          item.word_meanings] translationUnavailable := by
  unfold rawEnglish
  simp only [orStrLit_orStr, firstNonEmptyOr_cons]
  rfl

theorem rawEnglish_ne_nil (item : SourceRecord) : rawEnglish item ≠ [] := by
  have hl : ∀ (a : Option JSString) (lit : JSString), lit ≠ [] → orStrLit a lit ≠ [] := by
    intro a lit h
    rcases a with _ | _ | ⟨c, cs⟩ <;> simp [orStrLit, h]
  unfold rawEnglish
  simp only [orStrLit_orStr]
  exact hl _ _ (hl _ _ (hl _ _ (hl _ _ (hl _ _ (by decide)))))

theorem cleanSanskrit_eq_spec (s : JSString) : cleanSanskrit s = Spec.cleanOriginal s := by
  rw [cleanSanskrit_eq]
  unfold preTerminator Spec.cleanOriginal Spec.stripTrailingRun
  rw [trim_eq, stripTrailingNumbering_eq_rdropWhile]
  rfl

theorem orNum_chain (a b c : Option Int) :
    orNum (orNum a b) c = (Spec.firstNonZero [a, b, c]).or c := by
  rcases a with _ | a <;> rcases b with _ | b <;> rcases c with _ | c <;>
    simp [orNum, truthyNum, Spec.firstNonZero] <;>
    split_ifs <;> simp_all

theorem getLast_of_suffix (s t : JSString) (hs : s <:+ t) (hne : s ≠ []) :
    s.getLast? = t.getLast? := by
  obtain ⟨r, rfl⟩ := hs
  exact (List.getLast?_append_of_ne_nil r hne).symm

theorem getLast_trim_of_getLast (s : JSString)
    (h : ∀ w, s.getLast? = some w → isTrimChar w = false) (c : Char)
    (hc : (trim s).getLast? = some c) : s.getLast? = some c := by
  have hd : s.dropWhile isTrimChar ≠ [] := by
    intro he
    rw [trim_eq, he] at hc
    simp [List.rdropWhile] at hc
  have hl := getLast_of_suffix _ s (List.dropWhile_suffix isTrimChar) hd
  rw [trim_eq, rdropWhile_of_getLast isTrimChar _ (by rw [hl]; exact h), hl] at hc
  exact hc

theorem mem_dropWhile_of_not (p : Char → Bool) (s : JSString) (c : Char) (hc : c ∈ s)
    (hp : p c = false) : c ∈ s.dropWhile p := by
  induction s with
  | nil => exact hc
  | cons a l ih =>
    rw [List.dropWhile_cons]
    split
    · next ha =>
      rcases List.mem_cons.mp hc with rfl | hl
      · rw [hp] at ha
        exact absurd ha (by decide)
      · exact ih hl
    · exact hc

theorem mem_trim_of_not (s : JSString) (c : Char) (hc : c ∈ s) (hp : isTrimChar c = false) :
    c ∈ trim s := by
  rw [trim_eq]
  unfold List.rdropWhile
  rw [List.mem_reverse]
  apply mem_dropWhile_of_not _ _ _ _ hp
  rw [List.mem_reverse]
  exact mem_dropWhile_of_not _ _ _ hc hp

theorem mem_cleanEnglish_of_not (s : JSString) (c : Char) (hc : c ∈ s)
    (hp : isTrimChar c = false) : c ∈ cleanEnglish s := by
  apply mem_trim_of_not _ _ _ hp
  have hn : c ≠ '\n' := by
    rintro rfl
    exact absurd hp (by decide)
  exact List.mem_map.mpr ⟨c, hc, if_neg hn⟩

/-! ## The claims -/

/-- C1, as stated, fails: cleaning the already cleaned text `"a ।।"` appends a
second closing mark, so `clean (clean "a")` differs from `clean "a"`. -/
theorem cleanSanskrit_not_idempotent :
    cleanSanskrit ['a'] = "a ।।".toList ∧
    cleanSanskrit (cleanSanskrit ['a']) = "a ।। ।।".toList ∧
    cleanSanskrit (cleanSanskrit ['a']) ≠ cleanSanskrit ['a'] := by
  decide

/-- C1, amended: cleaning an already cleaned text leaves it unchanged exactly
when it is empty; a non-empty cleaned text comes back with one more closing
mark `" ।।"` appended. -/
theorem cleanSanskrit_reapplied (s : JSString) :
    cleanSanskrit (cleanSanskrit s) =
        (if cleanSanskrit s = [] then [] else cleanSanskrit s ++ danda) ∧
      (cleanSanskrit (cleanSanskrit s) = cleanSanskrit s ↔ cleanSanskrit s = []) := by
  have key := cleanSanskrit_twice s
  refine ⟨key, ?_⟩
  by_cases h : cleanSanskrit s = []
  · rw [if_pos h] at key
    exact ⟨fun _ => h, fun _ => key.trans h.symm⟩
  · rw [if_neg h] at key
    refine ⟨fun e => ?_, fun e => absurd e h⟩
    rw [key] at e
    simp [danda] at e

/-- C2 fails on the code: a record whose `translation` is the one-space string
passes the truthiness test of `||` and is then trimmed to the empty string. -/
theorem whitespace_translation_cleans_to_empty :
    rawEnglish { translation := some [' '] } = [' '] ∧
    (normalizeRecord { translation := some [' '] }).translation = [] := by
  decide

/-- C3: the canonical original text ends with `" ।।"` exactly when the cleaned
string before the terminator step is non-empty, and it is the empty string when
that string is empty. -/
theorem original_text_terminator_iff (item : SourceRecord) :
    (danda <:+ (normalizeRecord item).sanskrit ↔ preTerminator (rawSanskrit item) ≠ []) ∧
      (preTerminator (rawSanskrit item) = [] → (normalizeRecord item).sanskrit = []) := by
  have hs : (normalizeRecord item).sanskrit = cleanSanskrit (rawSanskrit item) := rfl
  rw [hs, cleanSanskrit_eq]
  by_cases he : preTerminator (rawSanskrit item) = []
  · rw [if_pos he]
    refine ⟨⟨fun h => ?_, fun h => absurd he h⟩, fun _ => rfl⟩
    have := List.IsSuffix.length_le h
    simp [danda] at this
  · rw [if_neg he]
    exact ⟨⟨fun _ => he, fun _ => List.suffix_append _ _⟩, fun h => absurd h he⟩

/-- C3 at a record without any original-text alias: the cleaned string is
empty and so is the canonical original text. -/
theorem original_text_terminator_iff_witness :
    preTerminator (rawSanskrit {}) = [] ∧ (normalizeRecord {}).sanskrit = [] :=
  ⟨by decide, (original_text_terminator_iff {}).2 (by decide)⟩

/-- C4: when every record resolves to an integer chapter and verse, the sequence
held in `gitaData` after ingestion is ordered by (chapter, verse): any two
adjacent records (indeed any earlier and later record) are in order, the earlier
one having a smaller chapter, or an equal chapter and a verse that is not
larger; the sequence is a rearrangement of the normalised records. -/
theorem gitaData_sorted_after_ingestion (rawData : List SourceRecord)
    (h : ∀ r ∈ rawData, (normalizeRecord r).chapter ≠ none ∧ (normalizeRecord r).verse ≠ none) :
    List.Chain' inOrder (onDOMContentLoaded (.response true (some rawData)) initialState).gitaData ∧
      List.Pairwise inOrder
        (onDOMContentLoaded (.response true (some rawData)) initialState).gitaData ∧
      List.Perm (onDOMContentLoaded (.response true (some rawData)) initialState).gitaData
        (rawData.map normalizeRecord) := by
  rw [gitaData_of_success]
  have hp : (arraySort compareVerses (rawData.map normalizeRecord)).Pairwise inOrder := by
    apply arraySort_pairwise
    intro v hv
    obtain ⟨r, hr, rfl⟩ := List.mem_map.mp hv
    exact h r hr
  exact ⟨hp.chain', hp, arraySort_perm _ _⟩

/-- C4 at three records given out of order: (2,1), (1,3), (1,2). -/
theorem gitaData_sorted_after_ingestion_witness :
    (∀ r ∈ [({ chapter := some 2, verse := some 1 } : SourceRecord),
        { chapter_number := some 1, verse_number := some 3 },
        { chapter_id := some 1, verse_id := some 2 }],
      (normalizeRecord r).chapter ≠ none ∧ (normalizeRecord r).verse ≠ none) ∧
    List.Chain' inOrder
      (onDOMContentLoaded (.response true (some
        [{ chapter := some 2, verse := some 1 },
         { chapter_number := some 1, verse_number := some 3 },
         { chapter_id := some 1, verse_id := some 2 }])) initialState).gitaData :=
  ⟨by decide, (gitaData_sorted_after_ingestion _ (by decide)).1⟩

/-- C5: the verses `openChapter(n)` selects all have chapter `n`, and they form
a subsequence of the canonical sequence (same relative order). -/
theorem chapterVerses_only_chapter_in_order (gitaData : List CanonicalVerse) (n : Int) :
    (∀ v ∈ chapterVerses gitaData n, v.chapter = some n) ∧
      List.Sublist (chapterVerses gitaData n) gitaData := by
  refine ⟨fun v hv => ?_, List.filter_sublist _⟩
  have hv2 := (List.mem_filter.mp hv).2
  unfold looseEqNum at hv2
  split at hv2
  · next x hx =>
    rw [hx]
    simpa using hv2
  · exact absurd hv2 (by decide)

/-- C6: when the fetch rejects, when the response is not ok (whatever its
body), and when the body does not parse, `gitaData` stays the empty array,
`initApp` is not called, and the error message is shown. -/
theorem failed_ingestion_leaves_gitaData_empty :
    ((onDOMContentLoaded .rejected initialState).gitaData = [] ∧
        (onDOMContentLoaded .rejected initialState).initAppCalls = 0 ∧
        (onDOMContentLoaded .rejected initialState).errorShown = true) ∧
      (∀ json, (onDOMContentLoaded (.response false json) initialState).gitaData = [] ∧
        (onDOMContentLoaded (.response false json) initialState).initAppCalls = 0 ∧
        (onDOMContentLoaded (.response false json) initialState).errorShown = true) ∧
      ((onDOMContentLoaded (.response true none) initialState).gitaData = [] ∧
        (onDOMContentLoaded (.response true none) initialState).initAppCalls = 0 ∧
        (onDOMContentLoaded (.response true none) initialState).errorShown = true) :=
  ⟨⟨rfl, rfl, rfl⟩, fun _ => ⟨rfl, rfl, rfl⟩, ⟨rfl, rfl, rfl⟩⟩

/-- C7, as stated, fails: with `translation` present but empty and `meaning`
holding `" x"`, the canonical translation is `"x"`: not the first present alias
(the empty string), not its cleaned value, and not the raw value of the first
non-empty alias either. -/
theorem translation_not_first_present :
    (normalizeRecord { translation := some [], meaning := some [' ', 'x'] }).translation =
        ['x'] ∧
      Spec.firstPresentOr [some [], some [' ', 'x'], none, none, none]
        translationUnavailable = [] ∧
      (normalizeRecord { translation := some [], meaning := some [' ', 'x'] }).translation ≠
        Spec.firstPresentOr [some [], some [' ', 'x'], none, none, none]
          translationUnavailable ∧
      (normalizeRecord { translation := some [], meaning := some [' ', 'x'] }).translation ≠
        Spec.firstNonEmptyOr [some [], some [' ', 'x'], none, none, none]
          translationUnavailable := by
  decide

/-- C7, amended: the canonical translation text is the cleaned value (newlines
replaced by spaces, then trimmed) of the first alias in the order translation,
meaning, english_meaning, transliteration, word_meanings that is present and
non-empty, or of the literal `"Translation unavailable."` when there is none;
stated for the records where that value has a character other than white
space, and then the text is non-empty.  A record with only `word_meanings`
`"the senses"` yields `"the senses"`, a record with no text-bearing alias yields
`"Translation unavailable."`. -/
theorem translation_is_cleaned_first_non_empty (item : SourceRecord)
    (h : ∃ c ∈ Spec.firstNonEmptyOr
      [item.translation, item.meaning, item.english_meaning, item.transliteration,
        item.word_meanings] translationUnavailable, isTrimChar c = false) :
    (normalizeRecord item).translation =
        cleanEnglish (Spec.firstNonEmptyOr
          [item.translation, item.meaning, item.english_meaning, item.transliteration,
            item.word_meanings] translationUnavailable) ∧
      (normalizeRecord item).translation ≠ [] ∧
      (normalizeRecord
        { chapter_id := some 2, verse_id := some 5, shloka := some "kledayanti".toList,
          word_meanings := some "the senses".toList }).translation = "the senses".toList ∧
      (normalizeRecord {}).translation = "Translation unavailable.".toList := by
  have hs : (normalizeRecord item).translation = cleanEnglish (rawEnglish item) := rfl
  rw [hs, rawEnglish_eq_spec]
  obtain ⟨c, hc, hp⟩ := h
  exact ⟨rfl, List.ne_nil_of_mem (mem_cleanEnglish_of_not _ c hc hp), by decide, by decide⟩

/-- C7 at the record that has `meaning` `"a\nb "` after an empty `translation`. -/
theorem translation_is_cleaned_first_non_empty_witness :
    (∃ c ∈ Spec.firstNonEmptyOr [some [], some "a\nb ".toList, none, none, none]
        translationUnavailable, isTrimChar c = false) ∧
      (normalizeRecord { translation := some [], meaning := some "a\nb ".toList }).translation =
        "a b".toList :=
  ⟨⟨'a', by decide, by decide⟩,
    (translation_is_cleaned_first_non_empty
      { translation := some [], meaning := some "a\nb ".toList }
      ⟨'a', by decide, by decide⟩).1.trans (by decide)⟩

/-- C8, as stated, fails: with `chapter` 0 and `chapter_number` 5 the canonical
chapter is 5, not the value 0 of the first present alias; with `verse` 0 alone
the canonical verse is undefined. -/
theorem zero_alias_is_skipped :
    (normalizeRecord { chapter := some 0, chapter_number := some 5, verse := some 0 }).chapter =
        some 5 ∧
      Spec.firstPresentNum [some 0, some 5, none] = some 0 ∧
      (normalizeRecord { chapter := some 0, chapter_number := some 5, verse := some 0 }).verse =
        none ∧
      Spec.firstPresentNum [some 0, none, none] = some 0 := by
  decide

/-- C8, amended: the canonical chapter is the value of the first alias among
chapter, chapter_number, chapter_id that is present and not zero, and the value
of `chapter_id` (possibly absent) when there is none; likewise the canonical
verse with verse, verse_number, verse_id. -/
theorem numbering_is_first_non_zero_alias (item : SourceRecord) :
    (normalizeRecord item).chapter =
        (Spec.firstNonZero [item.chapter, item.chapter_number, item.chapter_id]).or
          item.chapter_id ∧
      (normalizeRecord item).verse =
        (Spec.firstNonZero [item.verse, item.verse_number, item.verse_id]).or item.verse_id :=
  ⟨orNum_chain _ _ _, orNum_chain _ _ _⟩

/-- C9: the canonical original text is the result of the specification's
cleaning algorithm on the first present non-empty value among sanskrit, text,
shloka (the empty string if none); the record of the scenario normalises to
chapter 1, verse 1, `"raghavr ।।"`, `"Dhritarashtra said:"`. -/
theorem original_text_follows_cleaning_algorithm (item : SourceRecord) :
    (normalizeRecord item).sanskrit =
        Spec.cleanOriginal (Spec.firstNonEmptyOr [item.sanskrit, item.text, item.shloka] []) ∧
      normalizeRecord
          { chapter := some 1, verse := some 1, text := some "raghavr\n||1.1||".toList,
            translation := some "Dhritarashtra said:".toList } =
        { chapter := some 1, verse := some 1, sanskrit := "raghavr ।।".toList,
          translation := "Dhritarashtra said:".toList } := by
  have hs : (normalizeRecord item).sanskrit = cleanSanskrit (rawSanskrit item) := rfl
  rw [hs, rawSanskrit_eq_spec, cleanSanskrit_eq_spec]
  exact ⟨rfl, by decide⟩

/-- C10, as stated, fails: for `"x 1 ||1.1||"` the trailing run `"||1.1||"` is
stripped and the trim then uncovers the digit of `"x 1"`. -/
theorem preTerminator_may_end_with_digit :
    preTerminator "x 1 ||1.1||".toList = "x 1".toList ∧
      (preTerminator "x 1 ||1.1||".toList).getLast? = some '1' ∧
      isNumberingChar '1' = true := by
  decide

/-- C10, amended: the string left by the strip step (newlines replaced, trailing
run removed, not yet trimmed) does not end with a digit, `.` or `|`; the cleaned
string before the closing mark contains no newline; and that cleaned string
does not end with a digit, `.` or `|` whenever the strip step left no white
space at the end. -/
theorem strip_step_removes_trailing_run (raw : JSString) :
    (∀ c, (stripTrailingNumbering (replaceNewlines raw)).getLast? = some c →
        isNumberingChar c = false) ∧
      '\n' ∉ preTerminator raw ∧
      ((∀ w, (stripTrailingNumbering (replaceNewlines raw)).getLast? = some w →
          isTrimChar w = false) →
        ∀ c, (preTerminator raw).getLast? = some c → isNumberingChar c = false) := by
  refine ⟨getLast_stripTrailingNumbering _, preTerminator_not_mem raw, ?_⟩
  intro hw c hc
  exact getLast_stripTrailingNumbering _ c (getLast_trim_of_getLast _ hw c hc)

/-- C10 at `"ab||1.1||"`: the strip step leaves `"ab"`, which ends with no white
space, and the cleaned string does not end with a digit, `.` or `|`. -/
theorem strip_step_removes_trailing_run_witness :
    (stripTrailingNumbering (replaceNewlines "ab||1.1||".toList)).getLast? = some 'b' ∧
      isTrimChar 'b' = false ∧
      ∀ c, (preTerminator "ab||1.1||".toList).getLast? = some c → isNumberingChar c = false :=
  ⟨by decide, by decide,
    (strip_step_removes_trailing_run "ab||1.1||".toList).2.2 (fun w hw => by
      have h : (stripTrailingNumbering (replaceNewlines "ab||1.1||".toList)).getLast? =
          some 'b' := by decide
      rw [h] at hw
      cases hw
      decide)⟩

end Gita
